import Mathlib

/-!
# Verification of the zenpatch hunk-application engine

This file is a shallow embedding, in Lean 4, of the core of the `zenpatch`
repository (a Rust library applying block-structured textual patches to
in-memory file contents), together with theorems settling a list of claims
about its behaviour.

The embedding follows the Rust sources:

* `src/applier/whitespace_mode.rs` — `WhitespaceMode`
* `src/data/line_type.rs`          — `LineType`
* `src/data/chunk.rs`              — `Chunk`
* `src/data/action_type.rs`        — `ActionType`
* `src/data/patch_action.rs`       — `PatchAction`
* `src/error.rs`                   — `ZenpatchError`
* `src/applier/state.rs`           — `BacktrackingState`
* `src/applier/backtracking_patcher.rs` — the engine
* `src/apply.rs`                   — the multi-file driver

Rust `usize` values are modelled as `Nat` (all arithmetic in the engine is
on small indices; the only saturating operations, `usize::saturating_sub`
and `usize::saturating_add`, are modelled explicitly).  Rust `String`s are
Lean `String`s.  `HashSet<usize>` is modelled as a `List Nat` used purely
through membership (`contains`/insertion), which is the only way the code
uses it.  The thread-local node counter is modelled as an explicit value
threaded through the recursion; the bounded recursion of the Rust solver is
modelled with an explicit fuel argument, shown adequate below
(`backtrackFuel_congr`, `find_fixed_path_length_le`).
-/

namespace Zenpatch

/-- From `src/applier/whitespace_mode.rs`: controls whitespace sensitivity
when matching patch context and deletions. -/
inductive WhitespaceMode where
  | Strict
  | Lenient
  | SuperLenient
deriving DecidableEq, Repr

/-- From `src/data/line_type.rs`: the type of a line within a patch hunk. -/
inductive LineType where
  | Context
  | Deletion
  | Insertion
deriving DecidableEq, Repr

/-- From `src/data/chunk.rs`: a single contiguous block of changes
(context/additions/deletions) within a file patch.  `del_lines` and
`ins_lines` are populated by the parser as the order-preserving projections
of `lines` (see `text_to_patch.rs`, lines 47–73); the engine treats them as
plain fields. -/
structure Chunk where
  orig_index : Nat
  lines : List (LineType × String)
  del_lines : List String
  ins_lines : List String
deriving DecidableEq, Repr

/-- Mirrors `Chunk::new` from `src/data/chunk.rs`. -/
def Chunk.new : Chunk :=
  { orig_index := 0, lines := [], del_lines := [], ins_lines := [] }

instance : Inhabited Chunk := ⟨Chunk.new⟩

/-- The parser (`text_to_patch.rs`) populates `del_lines`/`ins_lines` as the projections
of `lines`; this predicate states that a chunk is coherent in that sense. -/
def Chunk.parserCoherent (c : Chunk) : Prop :=
  c.del_lines = (c.lines.filter (fun p => p.1 = LineType.Deletion)).map (·.2) ∧
  c.ins_lines = (c.lines.filter (fun p => p.1 = LineType.Insertion)).map (·.2)

/-- From `src/data/action_type.rs`. -/
inductive ActionType where
  | Add
  | Delete
  | Update
deriving DecidableEq, Repr

/-- From `src/data/patch_action.rs`: a single file operation of a patch. -/
structure PatchAction where
  type_ : ActionType
  path : String
  new_path : Option String
  chunks : List Chunk
deriving DecidableEq, Repr

/-- From `src/error.rs` (variants used by the application path). -/
inductive ZenpatchError where
  | InvalidPatchFormat (msg : String)
  | FileNotFound (path : String)
  | DuplicatePath (path : String)
  | MissingFile (path : String)
  | FileExists (path : String)
  | InvalidLine (line : String)
  | IndexOutOfBounds (msg : String)
  | IoError (msg : String)
  | PatchConflict (msg : String)
  | ContextNotFound (msg : String)
  | AmbiguousPatch (msg : String)
deriving DecidableEq, Repr

/-- From `src/applier/state.rs`: the state of the backtracking search. -/
structure BacktrackingState where
  current_line_index : Nat
  applied_chunks : List Nat
  modified_indices : List Nat
  solution_count : Nat
  first_solution_result : Option (List String)
  solution_path : Option (List (Nat × Nat))
deriving DecidableEq, Repr

/-- Mirrors `BacktrackingState::new`. -/
def BacktrackingState.new : BacktrackingState :=
  { current_line_index := 0, applied_chunks := [], modified_indices := [],
    solution_count := 0, first_solution_result := none, solution_path := none }

/-! ## Line comparator and normalisation
(`backtracking_patcher.rs`, lines 23–58) -/

/-- The Unicode White_Space property, as used by Rust's
`char::is_whitespace` / `str::split_whitespace` / `str::trim`. -/
def rustIsWhitespace (c : Char) : Bool :=
  let n := c.toNat
  n = 0x09 || n = 0x0A || n = 0x0B || n = 0x0C || n = 0x0D || n = 0x20 ||
  n = 0x85 || n = 0xA0 || n = 0x1680 ||
  (0x2000 ≤ n && n ≤ 0x200A) ||
  n = 0x2028 || n = 0x2029 || n = 0x202F || n = 0x205F || n = 0x3000

/-- Helper for `splitWhitespace`: accumulates the current word (reversed). -/
def splitWhitespaceAux : List Char → List Char → List (List Char)
  | [], cur => if cur = [] then [] else [cur.reverse]
  | c :: cs, cur =>
    if rustIsWhitespace c then
      if cur = [] then splitWhitespaceAux cs []
      else cur.reverse :: splitWhitespaceAux cs []
    else splitWhitespaceAux cs (c :: cur)

/-- Rust `str::split_whitespace`: the maximal runs of non-whitespace
characters, in order, empty runs discarded. -/
def splitWhitespace (s : String) : List String :=
  (splitWhitespaceAux s.toList []).map List.asString

/-- Mirrors `normalize` from `backtracking_patcher.rs`, lines 43–45:
`s.split_whitespace().collect::<Vec<_>>().join(" ")`. -/
def normalize (s : String) : String :=
  String.intercalate " " (splitWhitespace s)

/-- The character mapping of `super_normalise`
(`backtracking_patcher.rs`, lines 26–39). -/
def superMapChar (c : Char) : Char :=
  let n := c.toNat
  if n = 0x2010 || n = 0x2011 || n = 0x2012 || n = 0x2013 || n = 0x2014 ||
     n = 0x2015 || n = 0x2212 then '-'
  else if n = 0x2018 || n = 0x2019 || n = 0x201A || n = 0x201B then
    Char.ofNat 0x27
  else if n = 0x201C || n = 0x201D || n = 0x201E || n = 0x201F then
    Char.ofNat 0x22
  else if n = 0x00A0 || (0x2002 ≤ n && n ≤ 0x200A) || n = 0x202F ||
          n = 0x205F || n = 0x3000 then ' '
  else c

/-- Rust `str::trim`: strip leading and trailing whitespace characters. -/
def rustTrim (l : List Char) : List Char :=
  ((l.dropWhile rustIsWhitespace).reverse.dropWhile rustIsWhitespace).reverse

/-- Mirrors `super_normalise` from `backtracking_patcher.rs`, lines 23–41:
trim, then map dash/quote/space families to ASCII. -/
def super_normalise (s : String) : String :=
  ((rustTrim s.toList).map superMapChar).asString

/-- Mirrors `match_line` from `backtracking_patcher.rs`, lines 48–58: compares two
lines according to the whitespace mode. -/
def match_line (a b : String) (mode : WhitespaceMode) : Bool :=
  match mode with
  | .Strict => a == b
  | .Lenient => normalize a == normalize b
  | .SuperLenient => super_normalise (normalize a) == super_normalise (normalize b)

example : normalize "a " = "a" := by decide
example : normalize "  foo   bar " = "foo bar" := by decide
example : match_line "a " "a" .Lenient = true := by decide
example : match_line "a " "a" .Strict = false := by decide

/-! ## Candidate locator (`backtracking_patcher.rs`, lines 186–314) -/

/-- Mirrors `get_pre_context_lines` (lines 186–196): the leading contiguous run of
`Context` lines of a chunk. -/
def get_pre_context_lines (c : Chunk) : List String :=
  (c.lines.takeWhile (fun p => p.1 == LineType.Context)).map (·.2)

/-- The `pre_len` computation that `find_fixed_mappings`,
`get_affected_indices`, `apply_chunk` and `backtrack_with_mode` each repeat
inline (count of leading `Context` lines). -/
def preLen (c : Chunk) : Nat :=
  (c.lines.takeWhile (fun p => p.1 == LineType.Context)).length

/-- The `adj_pre` computation repeated inline at `backtracking_patcher.rs`
lines 142–151, 299–308, 327–336 and 422–431: if the last pre-context line
is immediately followed by a `Deletion` line that it matches under the
active mode, the effective pre-context length is `pre_len - 1`
(`saturating_sub`). -/
def adjPre (c : Chunk) (mode : WhitespaceMode) : Nat :=
  let pl := preLen c
  if 0 < pl ∧ c.del_lines ≠ [] then
    match c.lines.get? (pl - 1), c.lines.get? pl with
    | some (LineType.Context, ctx), some (LineType.Deletion, del) =>
      if match_line ctx del mode then pl - 1 else pl
    | _, _ => pl
  else pl

/-- A pattern (list of lines) matches the file at offset `i`, line by line
under the given mode (out-of-range indices fail, as in the Rust loops). -/
def matchSliceAt (lines : List String) (pat : List String) (i : Nat)
    (mode : WhitespaceMode) : Bool :=
  pat.enum.all (fun jp =>
    match lines.get? (i + jp.1) with
    | some l => match_line l jp.2 mode
    | none => false)

/-- The deletion-content check of `find_fixed_mappings` (lines 153–160) and
`backtrack_with_mode` (lines 433–440): every `del_lines[j]` matches
`lines[pos + adj_pre + j]`. -/
def contentMatchAt (lines : List String) (c : Chunk) (pos : Nat)
    (mode : WhitespaceMode) : Bool :=
  c.del_lines.enum.all (fun jd =>
    match lines.get? (pos + adjPre c mode + jd.1) with
    | some l => match_line l jd.2 mode
    | none => false)

/-- The trailing post-context collection of `find_match_positions`
(lines 243–256): trailing contiguous `Context` lines, blank ones
(whitespace-only, per `str::trim`) discarded, in file order. -/
def postContextNonBlank (c : Chunk) : List String :=
  (((c.lines.reverse.takeWhile (fun p => p.1 == LineType.Context)).map (·.2)).filter
    (fun s => ¬ (rustTrim s.toList).isEmpty)).reverse

/-- The plain candidate enumeration of `find_match_positions` for a hunk
with non-empty pre-context (lines 231–241): every offset where the
pre-context run matches. -/
def preScanPositions (lines : List String) (pre : List String)
    (mode : WhitespaceMode) : List Nat :=
  if lines.length < pre.length then []
  else (List.range (lines.length - pre.length + 1)).filter
    (fun i => matchSliceAt lines pre i mode)

/-- Mirrors `find_match_positions` (`backtracking_patcher.rs`, lines 198–286). -/
def find_match_positions (lines : List String) (c : Chunk)
    (mode : WhitespaceMode) : List Nat :=
  let pre := get_pre_context_lines c
  if pre.isEmpty then
    if c.del_lines.isEmpty then [min c.orig_index lines.length]
    else
      let del_len := c.del_lines.length
      if 0 < del_len ∧ del_len ≤ lines.length then
        (List.range (lines.length - del_len + 1)).filter
          (fun i => matchSliceAt lines c.del_lines i mode)
      else []
  else
    -- `backtracking_patcher.rs` lines 231–234: when the file is shorter
    -- than the pre-context run the function returns the (empty) position
    -- list at once — the post-context filter and the Lenient fallback
    -- below are not reached.
    if lines.length < pre.length then []
    else
    let base := preScanPositions lines pre mode
    let post := postContextNonBlank c
    let positions :=
      if c.del_lines.isEmpty ∧ ¬ c.ins_lines.isEmpty ∧ post ≠ [] then
        match post with
        | anchor :: _ =>
          base.filter (fun pos =>
            let start := pos + pre.length
            let stop := min lines.length (start + pre.length + 10)
            (List.range' start (stop - start)).any (fun i =>
              match lines.get? i with
              | some l => match_line l anchor mode
              | none => false))
        | [] => base
      else base
    if post = [] ∧ positions = [] ∧ mode = WhitespaceMode.Lenient ∧ pre ≠ [] then
      let anchor_idx := pre.length - 1
      let anchor := (pre.getLast?).getD ""
      ((List.range lines.length).filter (fun i =>
        match lines.get? i with
        | some l => match_line l anchor WhitespaceMode.Lenient
        | none => false)).map (fun i => i - anchor_idx)
    else positions

/-- Mirrors `get_affected_indices` (lines 288–314): the deletion footprint
`[pos + adj_pre, pos + adj_pre + |del_lines|)`. -/
def get_affected_indices (c : Chunk) (pos : Nat) (mode : WhitespaceMode) :
    List Nat :=
  List.range' (pos + adjPre c mode) c.del_lines.length

/-- Mirrors `apply_chunk` (lines 316–345). -/
def apply_chunk (lines : List String) (c : Chunk) (pos : Nat)
    (mode : WhitespaceMode) : List String :=
  let start_copy := min (pos + adjPre c mode) lines.length
  let end_del := min (pos + adjPre c mode + c.del_lines.length) lines.length
  lines.take start_copy ++ c.ins_lines ++ lines.drop end_del

/-! ## Replay -/

/-- Insert a placement into a by-offset-sorted list, before the first
placement with an offset `≥` its own. -/
def insertByPos (x : Nat × Nat) : List (Nat × Nat) → List (Nat × Nat)
  | [] => [x]
  | y :: ys => if x.2 ≤ y.2 then x :: y :: ys else y :: insertByPos x ys

/-- The stable sort by original offset, `ordered.sort_by_key(|&(_, pos)| pos)`
(`backtracking_patcher.rs` lines 101 and 368).  Rust's `sort_by_key` is a
stable sort; a stable sort's output is uniquely determined by the key
function, so this insertion sort (which keeps earlier elements first on
equal keys, see `sortByPos_filter_eq` below) computes the same list. -/
def sortByPos (l : List (Nat × Nat)) : List (Nat × Nat) :=
  l.foldr insertByPos []

/-- One iteration of the replay loop (`backtracking_patcher.rs`,
lines 104–113 and 369–378): position the chunk by the running delta,
apply it, update the delta. -/
def replayStep (chunks : List Chunk) (mode : WhitespaceMode)
    (acc : List String × Int) (cp : Nat × Nat) : List String × Int :=
  let c := chunks.getD cp.1 Chunk.new
  let pos : Nat := if 0 ≤ acc.2 then cp.2 + acc.2.toNat else cp.2 - (-acc.2).toNat
  (apply_chunk acc.1 c pos mode,
   acc.2 + (c.ins_lines.length : Int) - (c.del_lines.length : Int))

/-- The replay loop over an (already sorted) placement list, starting from
the original lines with delta 0. -/
def replayMapping (lines : List String) (chunks : List Chunk)
    (mapping : List (Nat × Nat)) (mode : WhitespaceMode) : List String :=
  (mapping.foldl (replayStep chunks mode) (lines, 0)).1

/-! ## Fixation pass and solver -/

/-- The completion branch of `backtrack_with_mode`
(`backtracking_patcher.rs`, lines 364–395): replay the full path (sorted by
offset); store the first solution, ignore a replay equal to it, and
declare ambiguity on a materially different one. -/
def onComplete (lines : List String) (chunks : List Chunk)
    (st : BacktrackingState) (path : List (Nat × Nat))
    (mode : WhitespaceMode) : BacktrackingState :=
  let candidate := replayMapping lines chunks (sortByPos path) mode
  if st.solution_count = 0 then
    { st with solution_count := 1, first_solution_result := some candidate,
              solution_path := some path }
  else
    match st.first_solution_result with
    | some first => if first = candidate then st
                    else { st with solution_count := 2 }
    | none => { st with solution_count := 2 }

/-- One iteration of `find_fixed_mappings`'s chunk loop
(`backtracking_patcher.rs`, lines 127–180).  The accumulator carries
`(result_path, state, used_indices)`. -/
def fixStep (lines : List String) (mode : WhitespaceMode)
    (acc : List (Nat × Nat) × BacktrackingState × List Nat)
    (ic : Nat × Chunk) : List (Nat × Nat) × BacktrackingState × List Nat :=
  let positions := find_match_positions lines ic.2 mode
  let valid := positions.filter (fun pos => contentMatchAt lines ic.2 pos mode)
  if valid.length = 1 then
    let pos := valid.getD 0 0
    let affected := get_affected_indices ic.2 pos mode
    if affected.all (fun idx => ! acc.2.2.contains idx) then
      (acc.1 ++ [(ic.1, pos)],
       { acc.2.1 with
          applied_chunks := ic.1 :: acc.2.1.applied_chunks,
          modified_indices := affected ++ acc.2.1.modified_indices },
       affected ++ acc.2.2)
    else acc
  else acc

/-- Mirrors `find_fixed_mappings` (`backtracking_patcher.rs`, lines 118–183):
pin every chunk with exactly one valid position whose footprint does not
overlap those already pinned. -/
def find_fixed_mappings (lines : List String) (chunks : List Chunk)
    (mode : WhitespaceMode) : List (Nat × Nat) × BacktrackingState :=
  let r := chunks.enum.foldl (fixStep lines mode) ([], BacktrackingState.new, [])
  (r.1, r.2.1)

/-- Mirrors `MAX_BACKTRACK_NODES` (`backtracking_patcher.rs`, line 21). -/
def MAX_BACKTRACK_NODES : Nat := 100000

/-- The value of `usize::MAX`, for the `saturating_add` on the node counter. -/
def USIZE_MAX : Nat := 2 ^ 64 - 1

/-- The `min_orig` computation of `backtrack_with_mode`
(`backtracking_patcher.rs`, lines 397–400): the minimum `orig_index` over
the chunks not yet applied. -/
def minOrigRemaining (chunks : List Chunk) (st : BacktrackingState) :
    Option Nat :=
  ((chunks.enum.filter (fun jc => ! st.applied_chunks.contains jc.1)).map
    (fun jc => jc.2.orig_index)).min?

/-- The skip condition of the solver's chunk loop
(`backtracking_patcher.rs`, lines 406–410): skip a chunk whose
`orig_index` is not the minimum (when a minimum exists). -/
def skipNotMinOrig (minOrig : Option Nat) (c : Chunk) : Bool :=
  match minOrig with
  | some m => decide (c.orig_index ≠ m)
  | none => false

/-- Mirrors `backtrack_with_mode` (`backtracking_patcher.rs`, lines 347–470).

The thread-local `NODE_COUNT` is the trailing `Nat` argument and result.
The Rust recursion terminates because every recursive call inserts a fresh
chunk index into `applied_chunks` and extends the path by one; here this
depth bound is an explicit fuel argument (first argument), consumed once
per recursive entry; `backtrackFuel_congr` below shows any fuel above the
depth bound computes the same function, and the engine supplies
`chunks.length + 1`, which is sufficient by
`find_fixed_path_length_le`.  The early `return`s of the Rust
loops are modelled by the `solution_count > 1` guards at the head of each
fold body: after the counter saturates, every remaining iteration of both
loops leaves the accumulator unchanged, exactly as an early exit does. -/
def backtrackFuel (lines : List String) (chunks : List Chunk)
    (mode : WhitespaceMode) :
    Nat → BacktrackingState → List (Nat × Nat) → Nat →
    BacktrackingState × Nat
  | 0, st, _, cnt => (st, cnt)
  | fuel+1, st, path, cnt =>
    let n := min (cnt + 1) USIZE_MAX
    if MAX_BACKTRACK_NODES < n ∨ 1 < st.solution_count then
      ({ st with solution_count := 2 }, n)
    else if path.length = chunks.length then
      (onComplete lines chunks st path mode, n)
    else
      let minOrig := minOrigRemaining chunks st
      chunks.enum.foldl (fun acc ic =>
        if 1 < acc.1.solution_count then acc
        else if acc.1.applied_chunks.contains ic.1 then acc
        else if skipNotMinOrig minOrig ic.2 then acc
        else
          (find_match_positions lines ic.2 mode).foldl (fun acc2 pos =>
            if 1 < acc2.1.solution_count then acc2
            else if ¬ contentMatchAt lines ic.2 pos mode then acc2
            else
              let affected := get_affected_indices ic.2 pos mode
              if affected.any (fun idx => acc2.1.modified_indices.contains idx)
              then acc2
              else
                let next_state := { acc2.1 with
                  applied_chunks := ic.1 :: acc2.1.applied_chunks,
                  modified_indices := affected ++ acc2.1.modified_indices }
                let r := backtrackFuel lines chunks mode fuel next_state
                  (path ++ [(ic.1, pos)]) acc2.2
                ({ acc2.1 with
                    solution_count := r.1.solution_count,
                    first_solution_result :=
                      if r.1.solution_count = 1 then r.1.first_solution_result
                      else acc2.1.first_solution_result,
                    solution_path :=
                      if r.1.solution_count = 1 then r.1.solution_path
                      else acc2.1.solution_path }, r.2)) acc
      ) (st, n)

/-! ## Engine driver (`apply_patch_backtracking_mode`) -/

/-- The degenerate-input test of `apply_patch_backtracking_mode`
(`backtracking_patcher.rs`, line 75): empty file and no hunk deletes
anything. -/
def degenerateInsertOnly (original_lines : List String)
    (chunks : List Chunk) : Bool :=
  original_lines.isEmpty && chunks.all (fun c => c.del_lines.isEmpty)

/-- The conflict message of `apply_patch_backtracking_mode`. -/
def conflictMsg : String :=
  "No valid patch application sequence found - please fix the patch include more context"

/-- The ambiguity message of `apply_patch_backtracking_mode`. -/
def ambiguousMsg : String :=
  "Patch application is ambiguous - please include more context before or after insertions or deletions"

/-- The non-degenerate part of one engine invocation: run the fixation
pass, reset the node counter to 0 (`backtracking_patcher.rs`, line 85) and
run the solver.  Returns the final solver state and the final node-counter
value. -/
def engineRun (original_lines : List String) (chunks : List Chunk)
    (mode : WhitespaceMode) : BacktrackingState × Nat :=
  let fm := find_fixed_mappings original_lines chunks mode
  backtrackFuel original_lines chunks mode (chunks.length + 1) fm.2 fm.1 0

/-- Mirrors `apply_patch_backtracking_mode` (`backtracking_patcher.rs`,
lines 70–115).  The `expect("solution_path must be set")` on line 99 is
modelled by `Option.getD []`; `solution_path_isSome_of_success` below shows
the default is never taken. -/
def apply_patch_backtracking_mode (original_lines : List String)
    (chunks : List Chunk) (mode : WhitespaceMode) :
    Except ZenpatchError (List String) :=
  if degenerateInsertOnly original_lines chunks then
    Except.ok (chunks.flatMap (·.ins_lines))
  else
    let st := (engineRun original_lines chunks mode).1
    if st.solution_count = 0 then Except.error (.PatchConflict conflictMsg)
    else if 1 < st.solution_count then
      Except.error (.AmbiguousPatch ambiguousMsg)
    else
      Except.ok (replayMapping original_lines chunks
        (sortByPos (st.solution_path.getD [])) mode)

/-- Mirrors `apply_patch_backtracking` (lines 62–67): the strict-mode wrapper. -/
def apply_patch_backtracking (original_lines : List String)
    (chunks : List Chunk) : Except ZenpatchError (List String) :=
  apply_patch_backtracking_mode original_lines chunks WhitespaceMode.Strict

/-- The thread-local `NODE_COUNT` made explicit: an invocation that starts
with the thread-local counter holding `node_count0` — the value left over
from a previous invocation.  The degenerate early return (line 75–80) does
not touch the counter; otherwise line 85 resets it to 0 before solving, so
the incoming value is discarded.  Returns the result together with the
counter value the invocation leaves behind. -/
def apply_patch_backtracking_mode_tl (node_count0 : Nat)
    (original_lines : List String) (chunks : List Chunk)
    (mode : WhitespaceMode) :
    Except ZenpatchError (List String) × Nat :=
  if degenerateInsertOnly original_lines chunks then
    (Except.ok (chunks.flatMap (·.ins_lines)), node_count0)
  else
    let r := engineRun original_lines chunks mode
    (if r.1.solution_count = 0 then Except.error (.PatchConflict conflictMsg)
     else if 1 < r.1.solution_count then
       Except.error (.AmbiguousPatch ambiguousMsg)
     else
       Except.ok (replayMapping original_lines chunks
         (sortByPos (r.1.solution_path.getD [])) mode), r.2)

/-- The replay order used by a successful non-degenerate invocation: the
list `ordered` of `backtracking_patcher.rs` lines 100–101, in the order the
placements are applied at lines 104–113. -/
def engineOrdered (original_lines : List String) (chunks : List Chunk)
    (mode : WhitespaceMode) : Option (List (Nat × Nat)) :=
  if degenerateInsertOnly original_lines chunks then none
  else
    let st := (engineRun original_lines chunks mode).1
    if st.solution_count = 1 then some (sortByPos (st.solution_path.getD []))
    else none

example :
    apply_patch_backtracking_mode ["a"]
      [⟨0, [(LineType.Deletion, "a"), (LineType.Insertion, "b")], ["a"], ["b"]⟩]
      WhitespaceMode.Strict = Except.ok ["b"] := by rfl

/-! ## The multi-file driver (`src/apply.rs`) -/

/-- The Update-action line transformation of `apply`
(`src/apply.rs`, lines 39–58): call the engine in Strict mode; on
`PatchConflict` or `AmbiguousPatch` call it again in Lenient mode and
return that result; propagate any other error unchanged. -/
def applyUpdateLines (original_lines : List String) (chunks : List Chunk) :
    Except ZenpatchError (List String) :=
  match apply_patch_backtracking_mode original_lines chunks WhitespaceMode.Strict with
  | .error (.PatchConflict _) =>
    apply_patch_backtracking_mode original_lines chunks WhitespaceMode.Lenient
  | .error (.AmbiguousPatch _) =>
    apply_patch_backtracking_mode original_lines chunks WhitespaceMode.Lenient
  | .ok lines => .ok lines
  | .error e => .error e

/-- The sequence of modes with which the Update branch of `apply` invokes
the engine, in call order (read off the call structure of `src/apply.rs`,
lines 39–58: the Strict call always happens; the Lenient call happens
exactly when the Strict call fails with conflict or ambiguity). -/
def driverModes (original_lines : List String) (chunks : List Chunk) :
    List WhitespaceMode :=
  match apply_patch_backtracking_mode original_lines chunks WhitespaceMode.Strict with
  | .error (.PatchConflict _) => [WhitespaceMode.Strict, WhitespaceMode.Lenient]
  | .error (.AmbiguousPatch _) => [WhitespaceMode.Strict, WhitespaceMode.Lenient]
  | _ => [WhitespaceMode.Strict]

/-- The VFS of `src/vfs.rs`: `HashMap<String, String>`, modelled as an
association list with unique keys, used through the map operations
`get` / `insert` / `remove` / `contains_key`. -/
abbrev Vfs : Type := List (String × String)

/-- Mirrors `HashMap::get`. -/
def Vfs.get (v : Vfs) (k : String) : Option String :=
  (List.find? (fun p => p.1 == k) v).map (·.2)

/-- Mirrors `HashMap::contains_key`. -/
def Vfs.containsKey (v : Vfs) (k : String) : Bool :=
  List.any v (fun p => p.1 == k)

/-- Mirrors `HashMap::insert` (replace the binding if the key is present,
otherwise add it). -/
def Vfs.insert (v : Vfs) (k val : String) : Vfs :=
  if Vfs.containsKey v k then
    List.map (fun p => if p.1 == k then (k, val) else p) v
  else v ++ [(k, val)]

/-- Mirrors `HashMap::remove` (drop the binding for the key). -/
def Vfs.remove (v : Vfs) (k : String) : Vfs :=
  List.filter (fun p => p.1 != k) v

/-- Split a character list at every newline character (`'\n'`), keeping
empty segments; `n` newlines yield `n + 1` segments. -/
def splitNl : List Char → List (List Char)
  | [] => [[]]
  | c :: cs =>
    if c = '\n' then [] :: splitNl cs
    else
      match splitNl cs with
      | s :: rest => (c :: s) :: rest
      | [] => [[c]]

/-- Rust `str::lines`, as used by `apply` (`src/apply.rs` lines 36–37,
93–94): split at `'\n'`, drop the final segment if it is empty (the final
line terminator is optional), and strip one trailing `'\r'` from each
line. -/
def rustLines (s : String) : List String :=
  let segs := splitNl s.toList
  let segs2 := if segs.getLast? = some [] then segs.dropLast else segs
  segs2.map (fun seg =>
    (if seg.getLast? = some (Char.ofNat 0x0D) then seg.dropLast else seg).asString)

/-- One iteration of the action loop of `apply` (`src/apply.rs`,
lines 29–105): route the action to the Update (lines 31–68),
Add (lines 69–81) or Delete (lines 82–103) branch.  The Update branch's
two engine calls are `applyUpdateLines` above. -/
def applyAction (vfs : Vfs) (action : PatchAction) :
    Except ZenpatchError Vfs :=
  match action.type_ with
  | .Update =>
    match Vfs.get vfs action.path with
    | none => .error (.FileNotFound action.path)
    | some original_content =>
      let original_lines := rustLines original_content
      match applyUpdateLines original_lines action.chunks with
      | .error e => .error e
      | .ok applied_lines =>
        let updated_content := String.intercalate "\n" applied_lines
        match action.new_path with
        | some new_path =>
          .ok (Vfs.insert (Vfs.remove vfs action.path) new_path updated_content)
        | none => .ok (Vfs.insert vfs action.path updated_content)
  | .Add =>
    if Vfs.containsKey vfs action.path then .error (.FileExists action.path)
    else
      .ok (Vfs.insert vfs action.path
        (String.intercalate "\n" (action.chunks.flatMap (·.ins_lines))))
  | .Delete =>
    match Vfs.get vfs action.path with
    | none => .error (.FileNotFound action.path)
    | some original_content =>
      let content_to_delete := action.chunks.flatMap (·.del_lines)
      let original_lines := rustLines original_content
      if content_to_delete = original_lines then .ok (Vfs.remove vfs action.path)
      else .error (.PatchConflict "Content to delete does not match original content.")

/-- The action loop of `apply`: apply the actions in order to the working
copy, stopping at the first error. -/
def applyActions (vfs : Vfs) : List PatchAction → Except ZenpatchError Vfs
  | [] => .ok vfs
  | a :: rest =>
    match applyAction vfs a with
    | .error e => .error e
    | .ok vfs2 => applyActions vfs2 rest

/-- Mirrors `apply` (`src/apply.rs`, lines 22–108), with the parser abstracted by
its result: `apply(patch_text, vfs)` is `applyDriver (text_to_patch
patch_text) vfs` — line 27 propagates a parse error with `?`, then the
action loop runs on the clone of the input VFS made at line 26. -/
def applyDriver (parsed : Except ZenpatchError (List PatchAction))
    (vfs : Vfs) : Except ZenpatchError Vfs :=
  match parsed with
  | .error e => .error e
  | .ok actions => applyActions vfs actions

/-- The call boundary of `apply`: the function receives the caller's map
by shared reference (`vfs: &crate::vfs::Vfs`) and clones it at
`src/apply.rs` line 26, mutating only the clone; the pair is
(returned result, the caller's map after the call returns). -/
def applyCall (parsed : Except ZenpatchError (List PatchAction))
    (vfs : Vfs) : Except ZenpatchError Vfs × Vfs :=
  (applyDriver parsed vfs, vfs)

/-! ## Claim-specific predicates and example inputs -/

/-- The consistency of a solver state's stored solution: whenever exactly
one solution has been counted, the stored path and the stored first
solution are present and the stored solution is the replay of the stored
path. -/
def StoredConsistent (lines : List String) (chunks : List Chunk)
    (mode : WhitespaceMode) (st : BacktrackingState) : Prop :=
  st.solution_count = 1 →
    ∃ p, st.solution_path = some p ∧
      st.first_solution_result =
        some (replayMapping lines chunks (sortByPos p) mode)

/-- Claim C7's reading of the replay order: ascending offsets with
equal-offset ties broken by hunk input order (i.e. the list is sorted
lexicographically by (offset, chunk index)). -/
def tiesByInputOrder (l : List (Nat × Nat)) : Prop :=
  List.Pairwise (fun a b : Nat × Nat => a.2 < b.2 ∨ (a.2 = b.2 ∧ a.1 ≤ b.1)) l

/-- Claim C5's reading of the adjacency correction: `adj_pre` is
`|pre| - 1` exactly when the last pre-context line matches the *first
deletion line* (`del_lines[0]`) under the active mode. -/
def adjPreClaimed (c : Chunk) (mode : WhitespaceMode) : Prop :=
  (match_line ((get_pre_context_lines c).getLast?.getD "")
      (c.del_lines.head?.getD "") mode = true →
    adjPre c mode = (get_pre_context_lines c).length - 1) ∧
  (match_line ((get_pre_context_lines c).getLast?.getD "")
      (c.del_lines.head?.getD "") mode = false →
    adjPre c mode = (get_pre_context_lines c).length)

/-- A hunk whose pre-context is a single line `"a"`, followed by an
insertion and then a deletion whose text `"a"` equals the pre-context
line (parser-coherent: such a hunk is produced from
`"@@\n a\n+X\n-a"`). -/
def exC5chunk : Chunk :=
  ⟨0, [(LineType.Context, "a"), (LineType.Insertion, "X"),
       (LineType.Deletion, "a")], ["a"], ["X"]⟩

/-- Hunk for the C8 failing input: pre-context `["p", "a "]`, deletion
`["a"]`, insertion `["X"]` (from `"@@\n p\n a \n-a\n+X"`).  Its last
pre-context line `"a "` matches its first deletion line `"a"` under
Lenient but not under Strict, so the adjacency correction of
`backtracking_patcher.rs` fires only in Lenient mode. -/
def exC8chunk : Chunk :=
  ⟨0, [(LineType.Context, "p"), (LineType.Context, "a "),
       (LineType.Deletion, "a"), (LineType.Insertion, "X")], ["a"], ["X"]⟩

/-- First hunk of the C7 failing input (input index 0): no context,
delete `["z"]`, insert `["B"]`. -/
def exC7chunkB : Chunk :=
  ⟨0, [(LineType.Deletion, "z"), (LineType.Insertion, "B")], ["z"], ["B"]⟩

/-- Second hunk of the C7 failing input (input index 1): pre-context
`["z", "y"]`, delete `["z"]`, insert `["A"]`. -/
def exC7chunkA : Chunk :=
  ⟨0, [(LineType.Context, "z"), (LineType.Context, "y"),
       (LineType.Deletion, "z"), (LineType.Insertion, "A")], ["z"], ["A"]⟩

/-- Chunk for the C2 witness: delete `["a"]`, insert `["b"]`, no context.
On the file `["a "]` it conflicts under Strict and succeeds under
Lenient. -/
def exC2chunk : Chunk :=
  ⟨0, [(LineType.Deletion, "a"), (LineType.Insertion, "b")], ["a"], ["b"]⟩

/-- Action for the C10 witness: delete file `"f"` with no deletion lines,
which conflicts when the file is non-empty. -/
def exDelAction : PatchAction :=
  ⟨ActionType.Delete, "f", none, []⟩

/-- Chunk for the C6 witness: pre-context `["p", "a"]`, a pure insertion,
no trailing context. -/
def exC6chunk : Chunk :=
  ⟨0, [(LineType.Context, "p"), (LineType.Context, "a"),
       (LineType.Insertion, "X")], [], ["X"]⟩

/-! ## Helper lemmas -/

/-- A predicate preserved by every step of a fold holds of its result. -/
theorem foldl_inv {α β : Type _} (P : β → Prop) (f : β → α → β) :
    ∀ (l : List α) (b : β), P b → (∀ b a, P b → P (f b a)) →
      P (l.foldl f b)
  | [], _b, hb, _ => hb
  | a :: l, b, hb, hf => foldl_inv P f l (f b a) (hf b a hb) hf

/-- The value `preLen` is the length of the pre-context projection. -/
theorem preLen_eq (c : Chunk) : preLen c = (get_pre_context_lines c).length := by
  simp [preLen, get_pre_context_lines]

/-- The line just before the end of the pre-context run is a `Context`
line carrying the last pre-context string. -/
theorem lines_get_pre_last (c : Chunk) (h : 0 < preLen c) :
    ∃ s, c.lines.get? (preLen c - 1) = some (LineType.Context, s) ∧
      (get_pre_context_lines c).getLast? = some s := by
  set p : LineType × String → Bool := fun q => q.1 == LineType.Context with hp
  set t := c.lines.takeWhile p with ht
  have hlt : preLen c = t.length := rfl
  have hsplit : t ++ c.lines.dropWhile p = c.lines :=
    List.takeWhile_append_dropWhile p c.lines
  have hget : c.lines.get? (preLen c - 1) = t.get? (t.length - 1) := by
    conv_lhs => rw [← hsplit]
    rw [hlt, List.get?_eq_getElem?, List.get?_eq_getElem?,
      List.getElem?_append_left (by omega : t.length - 1 < t.length)]
  have hlast : t.get? (t.length - 1) = t.getLast? := by
    rw [List.get?_eq_getElem?, List.getLast?_eq_getElem?]
  obtain ⟨x, hx⟩ : ∃ x, t.getLast? = some x := by
    cases hxx : t.getLast? with
    | none =>
      rw [List.getLast?_eq_none_iff] at hxx
      rw [hlt, hxx] at h; simp at h
    | some x => exact ⟨x, rfl⟩
  have hxmem : x ∈ t := List.mem_of_getLast?_eq_some hx
  have hctx : x.1 = LineType.Context := by
    have := List.mem_takeWhile_imp hxmem
    simpa [hp] using this
  refine ⟨x.2, ?_, ?_⟩
  · rw [hget, hlast, hx]
    cases x with
    | mk l s => simp at hctx; rw [hctx]
  · show (t.map (·.2)).getLast? = some x.2
    rw [List.getLast?_map, hx]; rfl

/-- The line just past the pre-context run is the head of the remainder of
the chunk. -/
theorem lines_get_preLen (c : Chunk) :
    c.lines.get? (preLen c) =
      (c.lines.dropWhile (fun q => q.1 == LineType.Context)).head? := by
  set p : LineType × String → Bool := fun q => q.1 == LineType.Context with hp
  set t := c.lines.takeWhile p with ht
  have hsplit : t ++ c.lines.dropWhile p = c.lines :=
    List.takeWhile_append_dropWhile p c.lines
  have hlt : preLen c = t.length := rfl
  conv_lhs => rw [← hsplit]
  rw [hlt, List.get?_eq_getElem?,
    List.getElem?_append_right (Nat.le_refl t.length)]
  simp [List.head?_eq_getElem?]

/-- In a parser-coherent chunk, if the line just past the pre-context is a
deletion, its text is the first deletion line. -/
theorem del_head_of_coherent (c : Chunk) (d : String)
    (hc : c.parserCoherent)
    (hd : c.lines.get? (preLen c) = some (LineType.Deletion, d)) :
    c.del_lines.head? = some d := by
  set p : LineType × String → Bool := fun q => q.1 == LineType.Context with hp
  have hsplit : c.lines.takeWhile p ++ c.lines.dropWhile p = c.lines :=
    List.takeWhile_append_dropWhile p c.lines
  rw [lines_get_preLen] at hd
  obtain ⟨rest, hrest⟩ : ∃ rest, c.lines.dropWhile p =
      (LineType.Deletion, d) :: rest := by
    cases hdw : c.lines.dropWhile p with
    | nil => rw [hdw] at hd; simp at hd
    | cons a rest =>
      rw [hdw] at hd; simp at hd
      exact ⟨rest, by rw [hd]⟩
  have hfilter : c.lines.filter (fun q => q.1 = LineType.Deletion) =
      (LineType.Deletion, d) :: rest.filter (fun q => q.1 = LineType.Deletion) := by
    rw [← hsplit, List.filter_append, hrest]
    have h1 : (c.lines.takeWhile p).filter
        (fun q => q.1 = LineType.Deletion) = [] := by
      rw [List.filter_eq_nil_iff]
      intro a ha
      have := List.mem_takeWhile_imp ha
      simp [hp] at this
      simp [this]
    rw [h1]; simp
  rw [hc.1, hfilter]; rfl

example : rustLines "a\r\nb" = ["a", "b"] := by decide
example : rustLines "" = [] := by decide
example : rustLines "a\n" = ["a"] := by decide
example : rustLines "\n" = [""] := by decide

/-! ## Claim C9 -/

/-- C9: line matching is monotone from stricter to laxer modes: a Strict
match is a Lenient match, and a Lenient match is a SuperLenient match. -/
theorem match_line_monotone (a b : String) :
    (match_line a b WhitespaceMode.Strict = true →
      match_line a b WhitespaceMode.Lenient = true) ∧
    (match_line a b WhitespaceMode.Lenient = true →
      match_line a b WhitespaceMode.SuperLenient = true) := by
  constructor
  · intro h
    simp only [match_line, beq_iff_eq] at h ⊢
    rw [h]
  · intro h
    simp only [match_line, beq_iff_eq] at h ⊢
    rw [h]

/-- Witness for C9 at concrete lines: `"a "` and `"a"` match under
Lenient, hence under SuperLenient. -/
theorem match_line_monotone_witness :
    match_line "a " "a" WhitespaceMode.Lenient = true ∧
    match_line "a " "a" WhitespaceMode.SuperLenient = true :=
  ⟨by decide, (match_line_monotone "a " "a").2 (by decide)⟩

/-! ## Claim C4 -/

/-- C4: on an empty original line-sequence, when every chunk has empty
`del_lines`, the engine succeeds in every mode with the concatenation of
all `ins_lines` in hunk order; the node counter is left untouched,
witnessing that neither fixation nor the solver runs. -/
theorem degenerate_insert_only (original_lines : List String)
    (chunks : List Chunk) (mode : WhitespaceMode) (node_count0 : Nat)
    (h0 : original_lines = [])
    (h1 : ∀ c ∈ chunks, c.del_lines = []) :
    apply_patch_backtracking_mode original_lines chunks mode =
      Except.ok (chunks.flatMap (·.ins_lines)) ∧
    apply_patch_backtracking_mode_tl node_count0 original_lines chunks mode =
      (Except.ok (chunks.flatMap (·.ins_lines)), node_count0) := by
  have hdeg : degenerateInsertOnly original_lines chunks = true := by
    simp only [degenerateInsertOnly, h0, List.isEmpty_nil, Bool.true_and,
      List.all_eq_true]
    intro c hc
    simp [h1 c hc]
  constructor
  · simp [apply_patch_backtracking_mode, hdeg]
  · simp [apply_patch_backtracking_mode_tl, hdeg]

/-! ## Stable sort lemmas -/

/-- Inserting is a permutation-respecting cons. -/
theorem insertByPos_perm (x : Nat × Nat) :
    ∀ l : List (Nat × Nat), (insertByPos x l).Perm (x :: l)
  | [] => List.Perm.refl _
  | y :: ys => by
    by_cases h : x.2 ≤ y.2
    · simp [insertByPos, h]
    · simp only [insertByPos, h, if_false]
      exact ((insertByPos_perm x ys).cons y).trans (List.Perm.swap x y ys)

/-- The stable sort is a permutation of its input. -/
theorem sortByPos_perm (l : List (Nat × Nat)) : (sortByPos l).Perm l := by
  induction l with
  | nil => exact List.Perm.refl _
  | cons a t ih =>
    show (insertByPos a (sortByPos t)).Perm (a :: t)
    exact (insertByPos_perm a (sortByPos t)).trans (List.Perm.cons a ih)

/-- Inserting into a by-offset-sorted list keeps it sorted. -/
theorem insertByPos_pairwise (x : Nat × Nat) :
    ∀ l : List (Nat × Nat),
      List.Pairwise (fun a b : Nat × Nat => a.2 ≤ b.2) l →
      List.Pairwise (fun a b : Nat × Nat => a.2 ≤ b.2) (insertByPos x l)
  | [], _ => by simp [insertByPos]
  | y :: ys, h => by
    rcases List.pairwise_cons.mp h with ⟨hy, hys⟩
    by_cases hxy : x.2 ≤ y.2
    · simp only [insertByPos, hxy, if_true]
      refine List.pairwise_cons.mpr ⟨?_, h⟩
      intro z hz
      rcases List.mem_cons.mp hz with rfl | hz
      · exact hxy
      · exact le_trans hxy (hy z hz)
    · simp only [insertByPos, hxy, if_false]
      refine List.pairwise_cons.mpr ⟨?_, insertByPos_pairwise x ys hys⟩
      intro z hz
      rcases List.mem_cons.mp ((insertByPos_perm x ys).mem_iff.mp hz) with
        rfl | hz2
      · omega
      · exact hy z hz2

/-- The replay list is sorted by ascending original offset. -/
theorem sortByPos_sorted (l : List (Nat × Nat)) :
    List.Pairwise (fun a b : Nat × Nat => a.2 ≤ b.2) (sortByPos l) := by
  induction l with
  | nil => simp [sortByPos]
  | cons a t ih => exact insertByPos_pairwise a (sortByPos t) ih

/-- Stability of the insertion step: the subsequence of placements at any
fixed offset is unchanged. -/
theorem insertByPos_filter (x : Nat × Nat) (k : Nat) :
    ∀ l : List (Nat × Nat),
      (insertByPos x l).filter (fun q => q.2 == k) =
        (x :: l).filter (fun q => q.2 == k)
  | [] => rfl
  | y :: ys => by
    by_cases hxy : x.2 ≤ y.2
    · simp [insertByPos, hxy]
    · simp only [insertByPos, hxy, if_false]
      have ih := insertByPos_filter x k ys
      by_cases hxk : x.2 = k
      · have hyk : ¬ (y.2 = k) := by omega
        simp [List.filter_cons, hxk, hyk, ih]
      · by_cases hyk : y.2 = k <;> simp [List.filter_cons, hxk, hyk, ih]

/-- Stability of the stable sort: for every offset `k`, the placements at
offset `k` appear in the sorted list in the same order as in the input. -/
theorem sortByPos_filter_eq (l : List (Nat × Nat)) (k : Nat) :
    (sortByPos l).filter (fun q => q.2 == k) =
      l.filter (fun q => q.2 == k) := by
  induction l with
  | nil => rfl
  | cons a t ih =>
    show (insertByPos a (sortByPos t)).filter (fun q => q.2 == k) = _
    rw [insertByPos_filter a k (sortByPos t)]
    by_cases hak : a.2 = k <;> simp [List.filter_cons, hak, ih]

/-! ## Solver-state invariants -/

/-- The fixation pass never touches the solution fields of the state. -/
theorem find_fixed_solution_fields (lines : List String)
    (chunks : List Chunk) (mode : WhitespaceMode) :
    (find_fixed_mappings lines chunks mode).2.solution_count = 0 ∧
    (find_fixed_mappings lines chunks mode).2.first_solution_result = none ∧
    (find_fixed_mappings lines chunks mode).2.solution_path = none := by
  have key := foldl_inv
    (fun acc : List (Nat × Nat) × BacktrackingState × List Nat =>
      acc.2.1.solution_count = 0 ∧ acc.2.1.first_solution_result = none ∧
      acc.2.1.solution_path = none)
    (fixStep lines mode) chunks.enum ([], BacktrackingState.new, [])
    ⟨rfl, rfl, rfl⟩ ?_
  · exact key
  · intro b a hb
    dsimp only [fixStep]
    split_ifs with h1 h2 <;> exact hb

/-- The completion step `onComplete` keeps the stored solution consistent with the solution
count. -/
theorem onComplete_stored (lines : List String) (chunks : List Chunk)
    (mode : WhitespaceMode) (st : BacktrackingState)
    (path : List (Nat × Nat))
    (h : StoredConsistent lines chunks mode st) :
    StoredConsistent lines chunks mode (onComplete lines chunks st path mode) := by
  unfold onComplete
  by_cases h0 : st.solution_count = 0
  · simp only [h0, if_true, reduceIte]
    intro _
    exact ⟨path, rfl, rfl⟩
  · simp only [h0, if_false, reduceIte]
    cases hf : st.first_solution_result with
    | none =>
      intro hc
      simp at hc
    | some first =>
      by_cases he : first = replayMapping lines chunks (sortByPos path) mode
      · simp only [he, if_true, reduceIte]
        exact h
      · simp only [he, if_false, reduceIte]
        intro hc
        simp at hc

/-- The propagation step of the solver loop (`backtracking_patcher.rs`,
lines 460–464) keeps the stored solution consistent. -/
theorem propagate_stored (lines : List String) (chunks : List Chunk)
    (mode : WhitespaceMode) (b r : BacktrackingState)
    (hr : StoredConsistent lines chunks mode r) :
    StoredConsistent lines chunks mode
      { b with solution_count := r.solution_count,
               first_solution_result :=
                 if r.solution_count = 1 then r.first_solution_result
                 else b.first_solution_result,
               solution_path :=
                 if r.solution_count = 1 then r.solution_path
                 else b.solution_path } := by
  intro hc
  simp only at hc
  obtain ⟨p, hp, hf⟩ := hr hc
  exact ⟨p, by simp [hc, hp], by simp [hc, hf]⟩

/-- The solver keeps the stored solution consistent with the solution
count: whenever the count is 1, the stored path is present and the stored
first solution is its replay. -/
theorem backtrack_stored (lines : List String) (chunks : List Chunk)
    (mode : WhitespaceMode) :
    ∀ (fuel : Nat) (st : BacktrackingState) (path : List (Nat × Nat))
      (cnt : Nat), StoredConsistent lines chunks mode st →
      StoredConsistent lines chunks mode
        ((backtrackFuel lines chunks mode fuel st path cnt).1) := by
  intro fuel
  induction fuel with
  | zero =>
    intro st path cnt h
    simpa [backtrackFuel] using h
  | succ f ih =>
    intro st path cnt h
    rw [backtrackFuel.eq_2]
    split
    · intro hc
      simp at hc
    · split
      · exact onComplete_stored lines chunks mode st path h
      · apply foldl_inv
          (fun acc : BacktrackingState × Nat =>
            StoredConsistent lines chunks mode acc.1)
        · exact h
        · intro b a hb
          dsimp only
          split
          · exact hb
          · split
            · exact hb
            · split
              · exact hb
              · apply foldl_inv
                  (fun acc : BacktrackingState × Nat =>
                    StoredConsistent lines chunks mode acc.1)
                · exact hb
                · intro b2 p2 hb2
                  dsimp only
                  split
                  · exact hb2
                  · split
                    · exact hb2
                    · split
                      · exact hb2
                      · exact propagate_stored lines chunks mode b2.1 _
                          (ih _ _ b2.2 hb2)

/-- The stored-solution consistency at the end of an engine run. -/
theorem engineRun_stored (original_lines : List String)
    (chunks : List Chunk) (mode : WhitespaceMode) :
    StoredConsistent original_lines chunks mode
      (engineRun original_lines chunks mode).1 := by
  unfold engineRun
  apply backtrack_stored
  intro h1
  have h0 := (find_fixed_solution_fields original_lines chunks mode).1
  rw [h0] at h1
  exact absurd h1 (by decide)

/-- On success the engine's result is exactly the stored first solution,
which is the replay of the stored path. -/
theorem engine_success_stored (original_lines : List String)
    (chunks : List Chunk) (mode : WhitespaceMode)
    (hdeg : degenerateInsertOnly original_lines chunks = false)
    (h1 : (engineRun original_lines chunks mode).1.solution_count = 1) :
    ∃ p, (engineRun original_lines chunks mode).1.solution_path = some p ∧
      (engineRun original_lines chunks mode).1.first_solution_result =
        some (replayMapping original_lines chunks (sortByPos p) mode) ∧
      apply_patch_backtracking_mode original_lines chunks mode =
        Except.ok (replayMapping original_lines chunks (sortByPos p) mode) := by
  obtain ⟨p, hp, hf⟩ := engineRun_stored original_lines chunks mode h1
  refine ⟨p, hp, hf, ?_⟩
  unfold apply_patch_backtracking_mode
  rw [hdeg]
  simp only [Bool.false_eq_true, if_false]
  rw [if_neg (by omega), if_neg (by omega), hp]
  rfl

/-- The `expect("solution_path must be set")` of
`apply_patch_backtracking_mode` never panics: on a solution count of 1 the
path is present. -/
theorem solution_path_isSome_of_success (original_lines : List String)
    (chunks : List Chunk) (mode : WhitespaceMode)
    (h1 : (engineRun original_lines chunks mode).1.solution_count = 1) :
    ((engineRun original_lines chunks mode).1.solution_path).isSome := by
  obtain ⟨p, hp, _⟩ := engineRun_stored original_lines chunks mode h1
  simp [hp]

set_option maxHeartbeats 1600000 in
/-- The node counter is bounded over any solver run started within the
budget: it never exceeds `MAX_BACKTRACK_NODES + 1`, and reaching
`MAX_BACKTRACK_NODES + 1` forces a saturated solution count. -/
theorem backtrack_nodes (lines : List String) (chunks : List Chunk)
    (mode : WhitespaceMode) :
    ∀ (fuel : Nat) (st : BacktrackingState) (path : List (Nat × Nat))
      (cnt : Nat), cnt ≤ MAX_BACKTRACK_NODES →
      (backtrackFuel lines chunks mode fuel st path cnt).2 ≤
        MAX_BACKTRACK_NODES + 1 ∧
      ((backtrackFuel lines chunks mode fuel st path cnt).2 =
          MAX_BACKTRACK_NODES + 1 →
        2 ≤ (backtrackFuel lines chunks mode fuel st path cnt).1.solution_count) := by
  intro fuel
  induction fuel with
  | zero =>
    intro st path cnt hc
    rw [backtrackFuel.eq_1]
    exact ⟨by omega, fun h => absurd h (by omega)⟩
  | succ f ih =>
    intro st path cnt hc
    have husize : cnt + 1 ≤ USIZE_MAX := by
      unfold MAX_BACKTRACK_NODES at hc
      unfold USIZE_MAX
      omega
    have hmin : min (cnt + 1) USIZE_MAX = cnt + 1 := by omega
    rw [backtrackFuel.eq_2]
    split
    · next hover =>
      refine ⟨by rw [hmin]; omega, fun _ => ?_⟩
      show 2 ≤ (2 : Nat)
      omega
    · next hover =>
      rw [not_or, Nat.not_lt, hmin] at hover
      split
      · exact ⟨by omega, fun h => absurd h (by omega)⟩
      · apply foldl_inv (fun acc : BacktrackingState × Nat =>
          acc.2 ≤ MAX_BACKTRACK_NODES + 1 ∧
          (acc.2 = MAX_BACKTRACK_NODES + 1 → 2 ≤ acc.1.solution_count))
        · exact ⟨by omega, fun h => absurd h (by omega)⟩
        · intro b a hb
          dsimp only
          split
          · exact hb
          · split
            · exact hb
            · split
              · exact hb
              · apply foldl_inv (fun acc : BacktrackingState × Nat =>
                  acc.2 ≤ MAX_BACKTRACK_NODES + 1 ∧
                  (acc.2 = MAX_BACKTRACK_NODES + 1 → 2 ≤ acc.1.solution_count))
                · exact hb
                · intro b2 p2 hb2
                  dsimp only
                  split
                  · exact hb2
                  · next hguard =>
                    split
                    · exact hb2
                    · split
                      · exact hb2
                      · have hne : b2.2 ≠ MAX_BACKTRACK_NODES + 1 := by
                          intro he
                          have := hb2.2 he
                          exact hguard (by omega)
                        have hle : b2.2 ≤ MAX_BACKTRACK_NODES := by
                          have := hb2.1
                          omega
                        have hr := ih
                          { b2.1 with
                            applied_chunks := a.1 :: b2.1.applied_chunks,
                            modified_indices :=
                              get_affected_indices a.2 p2 mode ++
                                b2.1.modified_indices }
                          (path ++ [(a.1, p2)]) b2.2 hle
                        exact ⟨hr.1, fun he => hr.2 he⟩

/-- Engine unfolding: the conflict case. -/
theorem engine_eq_conflict (original_lines : List String)
    (chunks : List Chunk) (mode : WhitespaceMode)
    (hdeg : degenerateInsertOnly original_lines chunks = false)
    (h0 : (engineRun original_lines chunks mode).1.solution_count = 0) :
    apply_patch_backtracking_mode original_lines chunks mode =
      Except.error (.PatchConflict conflictMsg) := by
  unfold apply_patch_backtracking_mode
  rw [hdeg]
  simp only [Bool.false_eq_true, if_false]
  rw [if_pos h0]

/-- Engine unfolding: the ambiguity case. -/
theorem engine_eq_ambiguous (original_lines : List String)
    (chunks : List Chunk) (mode : WhitespaceMode)
    (hdeg : degenerateInsertOnly original_lines chunks = false)
    (h2 : 1 < (engineRun original_lines chunks mode).1.solution_count) :
    apply_patch_backtracking_mode original_lines chunks mode =
      Except.error (.AmbiguousPatch ambiguousMsg) := by
  unfold apply_patch_backtracking_mode
  rw [hdeg]
  simp only [Bool.false_eq_true, if_false]
  rw [if_neg (by omega), if_pos h2]

/-! ## Claim C3 -/

/-- C3: the node counter is reset at the start of every non-degenerate
engine invocation, so the incoming thread-local value never influences the
result (first conjunct, which also ties the counter-explicit model to the
engine); each invocation makes at most `MAX_BACKTRACK_NODES + 1` recursive
entries (second conjunct: the final counter value, starting from the reset
0, is bounded); once the counter would exceed `MAX_BACKTRACK_NODES`, every
further entry immediately saturates the solution count to 2 and unwinds
(third conjunct); and an invocation whose counter reached the saturation
point reports `AmbiguousPatch` (fourth conjunct). -/
theorem node_counter_budget :
    (∀ (c0 c0' : Nat) (original_lines : List String) (chunks : List Chunk)
        (mode : WhitespaceMode),
      (apply_patch_backtracking_mode_tl c0 original_lines chunks mode).1 =
        (apply_patch_backtracking_mode_tl c0' original_lines chunks mode).1 ∧
      (apply_patch_backtracking_mode_tl c0 original_lines chunks mode).1 =
        apply_patch_backtracking_mode original_lines chunks mode) ∧
    (∀ (original_lines : List String) (chunks : List Chunk)
        (mode : WhitespaceMode),
      (engineRun original_lines chunks mode).2 ≤ MAX_BACKTRACK_NODES + 1) ∧
    (∀ (lines : List String) (chunks : List Chunk) (mode : WhitespaceMode)
        (fuel : Nat) (st : BacktrackingState) (path : List (Nat × Nat))
        (cnt : Nat), MAX_BACKTRACK_NODES ≤ cnt →
      backtrackFuel lines chunks mode (fuel + 1) st path cnt =
        ({ st with solution_count := 2 }, min (cnt + 1) USIZE_MAX)) ∧
    (∀ (original_lines : List String) (chunks : List Chunk)
        (mode : WhitespaceMode),
      degenerateInsertOnly original_lines chunks = false →
      MAX_BACKTRACK_NODES < (engineRun original_lines chunks mode).2 →
      apply_patch_backtracking_mode original_lines chunks mode =
        Except.error (.AmbiguousPatch ambiguousMsg)) := by
  refine ⟨?_, ?_, ?_, ?_⟩
  · intro c0 c0' original_lines chunks mode
    by_cases hdeg : degenerateInsertOnly original_lines chunks = true <;>
      constructor <;>
        simp [apply_patch_backtracking_mode_tl,
          apply_patch_backtracking_mode, hdeg]
  · intro original_lines chunks mode
    exact (backtrack_nodes original_lines chunks mode (chunks.length + 1)
      (find_fixed_mappings original_lines chunks mode).2
      (find_fixed_mappings original_lines chunks mode).1 0 (by omega)).1
  · intro lines chunks mode fuel st path cnt hcnt
    rw [backtrackFuel.eq_2]
    rw [if_pos]
    left
    unfold MAX_BACKTRACK_NODES at hcnt ⊢
    unfold USIZE_MAX
    omega
  · intro original_lines chunks mode hdeg hgt
    have h := backtrack_nodes original_lines chunks mode (chunks.length + 1)
      (find_fixed_mappings original_lines chunks mode).2
      (find_fixed_mappings original_lines chunks mode).1 0 (by omega)
    have h1 : (engineRun original_lines chunks mode).2 ≤
        MAX_BACKTRACK_NODES + 1 := h.1
    have he : (engineRun original_lines chunks mode).2 =
        MAX_BACKTRACK_NODES + 1 := by omega
    have h2 : 2 ≤ (engineRun original_lines chunks mode).1.solution_count :=
      h.2 he
    exact engine_eq_ambiguous original_lines chunks mode hdeg (by omega)

/-- Witness for C3: an entry at a counter already at the budget saturates
immediately, and the counter-explicit model agrees with the engine for a
concrete leftover counter value. -/
theorem node_counter_budget_witness :
    backtrackFuel [] [] WhitespaceMode.Strict 1 BacktrackingState.new []
      100000 =
      ({ BacktrackingState.new with solution_count := 2 },
        min 100001 USIZE_MAX) ∧
    (apply_patch_backtracking_mode_tl 12345 ["a"]
      [⟨0, [(LineType.Deletion, "a"), (LineType.Insertion, "b")],
        ["a"], ["b"]⟩] WhitespaceMode.Strict).1 =
      apply_patch_backtracking_mode ["a"]
        [⟨0, [(LineType.Deletion, "a"), (LineType.Insertion, "b")],
          ["a"], ["b"]⟩] WhitespaceMode.Strict :=
  ⟨node_counter_budget.2.2.1 [] [] WhitespaceMode.Strict 0
      BacktrackingState.new [] 100000 (by decide),
   (node_counter_budget.1 12345 0 ["a"]
      [⟨0, [(LineType.Deletion, "a"), (LineType.Insertion, "b")],
        ["a"], ["b"]⟩] WhitespaceMode.Strict).2⟩

/-! ## Claim C1 -/

/-- C1: every engine invocation returns exactly one of success,
`PatchConflict` or `AmbiguousPatch`; on a non-degenerate input the outcome
is determined by the final solution count — 0 maps to `PatchConflict`, 1
maps to success with the stored first solution, and 2 or more maps to
`AmbiguousPatch`; and a completed placement set whose replayed output
equals the stored first solution leaves the solution count at 1 (identical
replays are not counted as ambiguity). -/
theorem engine_outcome_trichotomy :
    (∀ (original_lines : List String) (chunks : List Chunk)
        (mode : WhitespaceMode),
      (∃ r, apply_patch_backtracking_mode original_lines chunks mode =
        Except.ok r) ∨
      apply_patch_backtracking_mode original_lines chunks mode =
        Except.error (.PatchConflict conflictMsg) ∨
      apply_patch_backtracking_mode original_lines chunks mode =
        Except.error (.AmbiguousPatch ambiguousMsg)) ∧
    (∀ (original_lines : List String) (chunks : List Chunk)
        (mode : WhitespaceMode),
      degenerateInsertOnly original_lines chunks = false →
      ((engineRun original_lines chunks mode).1.solution_count = 0 →
        apply_patch_backtracking_mode original_lines chunks mode =
          Except.error (.PatchConflict conflictMsg)) ∧
      ((engineRun original_lines chunks mode).1.solution_count = 1 →
        ∃ r, apply_patch_backtracking_mode original_lines chunks mode =
          Except.ok r ∧
        (engineRun original_lines chunks mode).1.first_solution_result =
          some r) ∧
      (1 < (engineRun original_lines chunks mode).1.solution_count →
        apply_patch_backtracking_mode original_lines chunks mode =
          Except.error (.AmbiguousPatch ambiguousMsg))) ∧
    (∀ (lines : List String) (chunks : List Chunk) (mode : WhitespaceMode)
        (st : BacktrackingState) (path : List (Nat × Nat)),
      st.solution_count = 1 →
      st.first_solution_result =
        some (replayMapping lines chunks (sortByPos path) mode) →
      (onComplete lines chunks st path mode).solution_count = 1) := by
  refine ⟨?_, ?_, ?_⟩
  · intro original_lines chunks mode
    by_cases hdeg : degenerateInsertOnly original_lines chunks = true
    · exact Or.inl ⟨chunks.flatMap (·.ins_lines),
        by simp [apply_patch_backtracking_mode, hdeg]⟩
    · have hd : degenerateInsertOnly original_lines chunks = false := by
        simpa using hdeg
      rcases hcount : (engineRun original_lines chunks mode).1.solution_count
        with _ | _ | n
      · exact Or.inr (Or.inl (engine_eq_conflict _ _ _ hd hcount))
      · obtain ⟨p, _, _, hok⟩ :=
          engine_success_stored original_lines chunks mode hd hcount
        exact Or.inl ⟨_, hok⟩
      · exact Or.inr (Or.inr (engine_eq_ambiguous _ _ _ hd (by omega)))
  · intro original_lines chunks mode hd
    refine ⟨engine_eq_conflict _ _ _ hd, ?_, engine_eq_ambiguous _ _ _ hd⟩
    intro h1
    obtain ⟨p, _, hfirst, hok⟩ :=
      engine_success_stored original_lines chunks mode hd h1
    exact ⟨_, hok, hfirst⟩
  · intro lines chunks mode st path h1 hf
    unfold onComplete
    rw [if_neg (by omega), hf]
    simp [h1]

/-- Witness for C1 at the one-line replacement input: the solver counts
exactly one solution and the engine succeeds with the stored first
solution. -/
theorem engine_outcome_trichotomy_witness :
    ∃ r, apply_patch_backtracking_mode ["a"]
        [⟨0, [(LineType.Deletion, "a"), (LineType.Insertion, "b")],
          ["a"], ["b"]⟩] WhitespaceMode.Strict = Except.ok r ∧
      (engineRun ["a"]
        [⟨0, [(LineType.Deletion, "a"), (LineType.Insertion, "b")],
          ["a"], ["b"]⟩] WhitespaceMode.Strict).1.first_solution_result =
        some r :=
  ((engine_outcome_trichotomy.2.1 ["a"]
    [⟨0, [(LineType.Deletion, "a"), (LineType.Insertion, "b")],
      ["a"], ["b"]⟩] WhitespaceMode.Strict (by rfl)).2.1) (by rfl)

/-! ## Claim C7 -/

/-- C7 (counterexample): on the file `["z", "y", "z"]` with hunk 0 a
bare deletion of `"z"` and hunk 1 anchored by pre-context `["z", "y"]`,
the fixation pass pins hunk 1 first, so the accepted solution replays
placement `(1, 0)` before `(0, 0)` — both at offset 0 — violating the
claimed equal-offset tie-break by hunk input order. -/
theorem replay_tie_input_order_counterexample :
    engineOrdered ["z", "y", "z"] [exC7chunkB, exC7chunkA]
      WhitespaceMode.Strict = some [(1, 0), (0, 0)] ∧
    ¬ tiesByInputOrder [(1, 0), (0, 0)] := by
  refine ⟨by rfl, ?_⟩
  intro h
  have h1 := (List.pairwise_cons.mp h).1 (0, 0) (by simp)
  rcases h1 with h1 | h1
  · exact absurd h1 (by decide)
  · exact absurd h1.2 (by decide)

/-- C7 (amended): in the replay of an accepted solution, placements are
applied in ascending original-offset order; placements with equal offsets
are applied in the order they appear on the stored solution path (fixed
placements in input order first, then solver placements in exploration
order) — the replay list is the stable by-offset sort of the stored path —
which need not be hunk input order. -/
theorem replay_order_stable (original_lines : List String)
    (chunks : List Chunk) (mode : WhitespaceMode) (l : List (Nat × Nat))
    (h : engineOrdered original_lines chunks mode = some l) :
    List.Pairwise (fun a b : Nat × Nat => a.2 ≤ b.2) l ∧
    ∃ p, (engineRun original_lines chunks mode).1.solution_path = some p ∧
      l = sortByPos p ∧ l.Perm p ∧
      (∀ k, l.filter (fun q => q.2 == k) = p.filter (fun q => q.2 == k)) ∧
      apply_patch_backtracking_mode original_lines chunks mode =
        Except.ok (replayMapping original_lines chunks l mode) := by
  unfold engineOrdered at h
  split at h
  · exact absurd h (by simp)
  · dsimp only at h
    split at h
    · next hdeg h1 =>
      have hd : degenerateInsertOnly original_lines chunks = false := by
        simpa using hdeg
      obtain ⟨p, hp, _, hok⟩ :=
        engine_success_stored original_lines chunks mode hd h1
      rw [hp] at h
      simp only [Option.getD_some, Option.some_inj] at h
      subst h
      exact ⟨sortByPos_sorted p, p, hp, rfl, sortByPos_perm p,
        fun k => sortByPos_filter_eq p k, hok⟩
    · exact absurd h (by simp)

/-- Witness for C7 (amended) at the counterexample input: the replay list
`[(1, 0), (0, 0)]` is sorted by offset and is the stable sort of the
stored path. -/
theorem replay_order_stable_witness :
    List.Pairwise (fun a b : Nat × Nat => a.2 ≤ b.2) [(1, 0), (0, 0)] ∧
    ∃ p, (engineRun ["z", "y", "z"] [exC7chunkB, exC7chunkA]
        WhitespaceMode.Strict).1.solution_path = some p ∧
      ([(1, 0), (0, 0)] : List (Nat × Nat)) = sortByPos p ∧
      ([(1, 0), (0, 0)] : List (Nat × Nat)).Perm p ∧
      (∀ k, ([(1, 0), (0, 0)] : List (Nat × Nat)).filter
          (fun q => q.2 == k) = p.filter (fun q => q.2 == k)) ∧
      apply_patch_backtracking_mode ["z", "y", "z"]
        [exC7chunkB, exC7chunkA] WhitespaceMode.Strict =
          Except.ok (replayMapping ["z", "y", "z"]
            [exC7chunkB, exC7chunkA] [(1, 0), (0, 0)]
            WhitespaceMode.Strict) :=
  replay_order_stable ["z", "y", "z"] [exC7chunkB, exC7chunkA]
    WhitespaceMode.Strict [(1, 0), (0, 0)] (by rfl)

/-! ## Claim C8 -/

/-- C8 (failing input): on the file `["p", "a ", "a"]` with the single
hunk `exC8chunk`, the engine succeeds in Strict mode with
`["p", "a ", "X"]` and also succeeds in Lenient mode, but with the
different line-sequence `["p", "X", "a"]`: the adjacency correction
lowers `adj_pre` from 2 to 1 in Lenient mode, shifting the deletion
footprint, so the two modes place the edit at different lines.  This
contradicts the specified mode-monotonicity law. -/
theorem mode_monotonicity_violation :
    apply_patch_backtracking_mode ["p", "a ", "a"] [exC8chunk]
      WhitespaceMode.Strict = Except.ok ["p", "a ", "X"] ∧
    apply_patch_backtracking_mode ["p", "a ", "a"] [exC8chunk]
      WhitespaceMode.Lenient = Except.ok ["p", "X", "a"] ∧
    (["p", "a ", "X"] : List String) ≠ ["p", "X", "a"] :=
  ⟨by rfl, by rfl, by decide⟩

/-! ## Claim C5 -/

/-- C5 (counterexample): for the parser-coherent hunk
`[Context "a", Insertion "X", Deletion "a"]` the last pre-context line
matches the first deletion line under Strict mode, yet `adj_pre` is
`|pre| = 1`, not `|pre| - 1 = 0`: the code only applies the adjacency
correction when the line *immediately following* the pre-context is a
deletion, and here an insertion intervenes. -/
theorem adjPre_claim_counterexample :
    get_pre_context_lines exC5chunk ≠ [] ∧
    exC5chunk.del_lines ≠ [] ∧
    exC5chunk.parserCoherent ∧
    match_line ((get_pre_context_lines exC5chunk).getLast?.getD "")
      (exC5chunk.del_lines.head?.getD "") WhitespaceMode.Strict = true ∧
    ¬ adjPreClaimed exC5chunk WhitespaceMode.Strict ∧
    adjPre exC5chunk WhitespaceMode.Strict =
      (get_pre_context_lines exC5chunk).length ∧
    get_affected_indices exC5chunk 0 WhitespaceMode.Strict = [1] := by
  refine ⟨by decide, by decide, ⟨by decide, by decide⟩, by decide, ?_,
    by decide, by decide⟩
  intro h
  exact absurd (h.1 (by decide)) (by decide)

/-- C5 (amended): for a hunk with non-empty pre-context and non-empty
`del_lines`, the effective pre-context length is `|pre| - 1` exactly when
the line *immediately following* the pre-context run is a deletion line
matching the last pre-context line under the active mode (in a
parser-coherent chunk that line, when it is a deletion, is the first
deletion line); in every other case — including when an insertion stands
between the pre-context and the first deletion — `adj_pre = |pre|`.  The
deletion footprint of a candidate at offset `pos` is always
`[pos + adj_pre, pos + adj_pre + |del_lines|)`. -/
theorem adjPre_adjacent_deletion (c : Chunk) (mode : WhitespaceMode) (pos : Nat)
    (hpre : get_pre_context_lines c ≠ []) (hdel : c.del_lines ≠ []) :
    (∀ d, c.lines.get? (get_pre_context_lines c).length =
        some (LineType.Deletion, d) →
      (c.parserCoherent → c.del_lines.head? = some d) ∧
      (match_line ((get_pre_context_lines c).getLast?.getD "") d mode = true →
        adjPre c mode = (get_pre_context_lines c).length - 1) ∧
      (match_line ((get_pre_context_lines c).getLast?.getD "") d mode = false →
        adjPre c mode = (get_pre_context_lines c).length)) ∧
    ((∀ d, c.lines.get? (get_pre_context_lines c).length ≠
        some (LineType.Deletion, d)) →
      adjPre c mode = (get_pre_context_lines c).length) ∧
    get_affected_indices c pos mode =
      List.range' (pos + adjPre c mode) c.del_lines.length := by
  have hpl : 0 < preLen c := by
    rw [preLen_eq]
    exact List.length_pos.mpr hpre
  obtain ⟨s, hs1, hs2⟩ := lines_get_pre_last c hpl
  have hguard : (0 < preLen c ∧ c.del_lines ≠ []) := ⟨hpl, hdel⟩
  have hD : ∀ d, c.lines.get? (preLen c) = some (LineType.Deletion, d) →
      adjPre c mode = if match_line s d mode then preLen c - 1
                      else preLen c := by
    intro d hd
    simp only [adjPre, if_pos hguard, hs1, hd]
  have hN : (∀ d, c.lines.get? (preLen c) ≠ some (LineType.Deletion, d)) →
      adjPre c mode = preLen c := by
    intro hnd
    simp only [adjPre, if_pos hguard, hs1]
    cases hq : c.lines.get? (preLen c) with
    | none => rfl
    | some q =>
      cases q with
      | mk lt d =>
        cases lt with
        | Context => rfl
        | Deletion => exact absurd hq (hnd d)
        | Insertion => rfl
  have hgetD : ((get_pre_context_lines c).getLast?).getD "" = s := by
    rw [hs2]; rfl
  refine ⟨?_, ?_, rfl⟩
  · intro d hd
    rw [← preLen_eq] at hd
    refine ⟨fun hc => del_head_of_coherent c d hc hd, ?_, ?_⟩
    · intro hm
      rw [hgetD] at hm
      rw [hD d hd, if_pos hm, preLen_eq]
    · intro hm
      rw [hgetD] at hm
      rw [hD d hd, if_neg (by simp [hm]), preLen_eq]
  · intro hnd
    rw [← preLen_eq]
    exact hN (by rw [preLen_eq]; exact hnd)

/-- Witness for C5 (amended) at a hunk whose pre-context is directly
followed by a matching deletion: `adj_pre` drops to `|pre| - 1 = 1` and
the footprint of the candidate at offset 0 is `[1]`. -/
theorem adjPre_adjacent_deletion_witness :
    adjPre exC8chunk WhitespaceMode.Lenient = 1 ∧
    get_affected_indices exC8chunk 0 WhitespaceMode.Lenient =
      List.range' (0 + adjPre exC8chunk WhitespaceMode.Lenient)
        exC8chunk.del_lines.length := by
  have h := adjPre_adjacent_deletion exC8chunk WhitespaceMode.Lenient 0
    (by decide) (by decide)
  refine ⟨?_, h.2.2⟩
  have h2 := (h.1 "a" (by decide)).2.1 (by decide)
  simpa using h2

/-! ## Claim C6 -/

/-- C6 (counterexample): on the one-line file `["a"]` with the hunk
`exC6chunk` (pre-context `["p", "a"]`, no deletions, no non-blank trailing
context), the ordinary candidate enumeration is empty and the mode is
Lenient, yet no fallback happens: the locator returns early because the
file is shorter than the pre-context run (`backtracking_patcher.rs`,
lines 231–234), while the claimed one-line-anchor re-attempt would match
`"a"` at index 0 and yield the candidate list `[0]`. -/
theorem lenient_fallback_counterexample :
    get_pre_context_lines exC6chunk ≠ [] ∧
    postContextNonBlank exC6chunk = [] ∧
    preScanPositions ["a"] (get_pre_context_lines exC6chunk)
      WhitespaceMode.Lenient = [] ∧
    find_match_positions ["a"] exC6chunk WhitespaceMode.Lenient = [] ∧
    ((List.range (["a"] : List String).length).filter (fun i =>
      match (["a"] : List String).get? i with
      | some l => match_line l
          (((get_pre_context_lines exC6chunk).getLast?).getD "")
          WhitespaceMode.Lenient
      | none => false)).map
      (fun i => i - ((get_pre_context_lines exC6chunk).length - 1)) =
        [0] ∧
    ([] : List Nat) ≠ [0] := by
  exact ⟨by decide, by decide, by decide, by decide, by decide, by decide⟩

/-- C6 (amended): for a hunk with non-empty pre-context and empty
non-blank trailing post-context, *provided the file is at least as long as
the pre-context run*, when the ordinary candidate enumeration finds
nothing, the Lenient mode — and only the Lenient mode — re-attempts
matching with the last pre-context line as a one-line anchor scanned over
the whole file, each match at index `m` yielding the offset
`m - (|pre| - 1)` (saturating at 0); Strict and SuperLenient return the
empty candidate list, and a file shorter than the pre-context gets the
empty candidate list with no fallback in any mode. -/
theorem lenient_single_anchor_fallback (lines : List String) (c : Chunk)
    (hpre : get_pre_context_lines c ≠ [])
    (hpost : postContextNonBlank c = []) :
    ((get_pre_context_lines c).length ≤ lines.length →
      preScanPositions lines (get_pre_context_lines c)
        WhitespaceMode.Lenient = [] →
      find_match_positions lines c WhitespaceMode.Lenient =
        ((List.range lines.length).filter (fun i =>
          match lines.get? i with
          | some l => match_line l
              (((get_pre_context_lines c).getLast?).getD "")
              WhitespaceMode.Lenient
          | none => false)).map
          (fun i => i - ((get_pre_context_lines c).length - 1))) ∧
    (preScanPositions lines (get_pre_context_lines c)
        WhitespaceMode.Strict = [] →
      find_match_positions lines c WhitespaceMode.Strict = []) ∧
    (preScanPositions lines (get_pre_context_lines c)
        WhitespaceMode.SuperLenient = [] →
      find_match_positions lines c WhitespaceMode.SuperLenient = []) ∧
    (lines.length < (get_pre_context_lines c).length →
      ∀ mode, find_match_positions lines c mode = []) := by
  have hie : (get_pre_context_lines c).isEmpty = false := by
    cases hgp : get_pre_context_lines c with
    | nil => exact absurd hgp hpre
    | cons a l => rfl
  refine ⟨?_, ?_, ?_, ?_⟩
  · intro hfit hscan
    have hnlt : ¬ lines.length < (get_pre_context_lines c).length := by
      omega
    simp only [find_match_positions, hie, Bool.false_eq_true, if_false,
      hnlt, hpost, hscan, ne_eq, not_true_eq_false, and_false, false_and,
      if_false, reduceCtorEq, and_true, not_false_eq_true, and_self,
      if_true, hpre]
  · intro hscan
    by_cases hnlt : lines.length < (get_pre_context_lines c).length <;>
      simp only [find_match_positions, hie, Bool.false_eq_true, if_false,
        hnlt, hpost, hscan, ne_eq, not_true_eq_false, and_false, false_and,
        if_false, reduceCtorEq, and_true, not_false_eq_true, and_self,
        if_true, hpre]
  · intro hscan
    by_cases hnlt : lines.length < (get_pre_context_lines c).length <;>
      simp only [find_match_positions, hie, Bool.false_eq_true, if_false,
        hnlt, hpost, hscan, ne_eq, not_true_eq_false, and_false, false_and,
        if_false, reduceCtorEq, and_true, not_false_eq_true, and_self,
        if_true, hpre]
  · intro hnlt mode
    simp only [find_match_positions, hie, Bool.false_eq_true, if_false,
      hnlt, if_true, reduceIte]

/-- Witness for C6 (amended): pre-context `["p", "a"]` does not match
`["z", "a"]` as a block in any mode, but the Lenient fallback anchors on
`"a"` at index 1 and yields the offset `1 - (2 - 1) = 0`; Strict stays
empty. -/
theorem lenient_single_anchor_fallback_witness :
    preScanPositions ["z", "a"] (get_pre_context_lines exC6chunk)
      WhitespaceMode.Lenient = [] ∧
    find_match_positions ["z", "a"] exC6chunk WhitespaceMode.Lenient = [0] ∧
    find_match_positions ["z", "a"] exC6chunk WhitespaceMode.Strict = [] := by
  have h := lenient_single_anchor_fallback ["z", "a"] exC6chunk
    (by decide) (by decide)
  refine ⟨by decide, ?_, h.2.1 (by decide)⟩
  exact (h.1 (by decide) (by decide)).trans (by decide)

/-! ## Claim C2 -/

/-- C2: the driver's Update branch first calls the engine in Strict mode;
exactly when that call fails with `PatchConflict` or `AmbiguousPatch` does
it call the engine a second time on the same inputs in Lenient mode and
return that result; any other Strict error is returned unchanged; and the
driver's call sequence is `[Strict]` or `[Strict, Lenient]`, never
containing `SuperLenient`. -/
theorem update_mode_escalation (original_lines : List String)
    (chunks : List Chunk) :
    (∀ l, apply_patch_backtracking_mode original_lines chunks
        WhitespaceMode.Strict = Except.ok l →
      applyUpdateLines original_lines chunks = Except.ok l) ∧
    (∀ m, apply_patch_backtracking_mode original_lines chunks
        WhitespaceMode.Strict = Except.error (.PatchConflict m) →
      applyUpdateLines original_lines chunks =
        apply_patch_backtracking_mode original_lines chunks
          WhitespaceMode.Lenient) ∧
    (∀ m, apply_patch_backtracking_mode original_lines chunks
        WhitespaceMode.Strict = Except.error (.AmbiguousPatch m) →
      applyUpdateLines original_lines chunks =
        apply_patch_backtracking_mode original_lines chunks
          WhitespaceMode.Lenient) ∧
    (∀ e, apply_patch_backtracking_mode original_lines chunks
        WhitespaceMode.Strict = Except.error e →
      (∀ m, e ≠ .PatchConflict m) → (∀ m, e ≠ .AmbiguousPatch m) →
      applyUpdateLines original_lines chunks = Except.error e) ∧
    (driverModes original_lines chunks).head? = some WhitespaceMode.Strict ∧
    WhitespaceMode.SuperLenient ∉ driverModes original_lines chunks ∧
    (driverModes original_lines chunks =
        [WhitespaceMode.Strict, WhitespaceMode.Lenient] ↔
      ∃ m, apply_patch_backtracking_mode original_lines chunks
          WhitespaceMode.Strict = Except.error (.PatchConflict m) ∨
        apply_patch_backtracking_mode original_lines chunks
          WhitespaceMode.Strict = Except.error (.AmbiguousPatch m)) ∧
    (driverModes original_lines chunks = [WhitespaceMode.Strict] ∨
      driverModes original_lines chunks =
        [WhitespaceMode.Strict, WhitespaceMode.Lenient]) := by
  refine ⟨?_, ?_, ?_, ?_, ?_, ?_, ?_, ?_⟩
  · intro l hl
    unfold applyUpdateLines
    rw [hl]
  · intro m hm
    unfold applyUpdateLines
    rw [hm]
  · intro m hm
    unfold applyUpdateLines
    rw [hm]
  · intro e he hnc hna
    unfold applyUpdateLines
    rw [he]
    cases e with
    | PatchConflict m => exact absurd rfl (hnc m)
    | AmbiguousPatch m => exact absurd rfl (hna m)
    | InvalidPatchFormat m => rfl
    | FileNotFound m => rfl
    | DuplicatePath m => rfl
    | MissingFile m => rfl
    | FileExists m => rfl
    | InvalidLine m => rfl
    | IndexOutOfBounds m => rfl
    | IoError m => rfl
    | ContextNotFound m => rfl
  · rcases hs : apply_patch_backtracking_mode original_lines chunks
        WhitespaceMode.Strict with e | l
    · cases e <;> simp [driverModes, hs]
    · simp [driverModes, hs]
  · rcases hs : apply_patch_backtracking_mode original_lines chunks
        WhitespaceMode.Strict with e | l
    · cases e <;> simp [driverModes, hs]
    · simp [driverModes, hs]
  · rcases hs : apply_patch_backtracking_mode original_lines chunks
        WhitespaceMode.Strict with e | l
    swap
    · constructor
      · intro h
        simp [driverModes, hs] at h
      · rintro ⟨m, hm | hm⟩ <;> simp [hs] at hm
    · cases e with
      | PatchConflict m =>
        refine ⟨fun _ => ⟨m, Or.inl rfl⟩, fun _ => by simp [driverModes, hs]⟩
      | AmbiguousPatch m =>
        refine ⟨fun _ => ⟨m, Or.inr rfl⟩, fun _ => by simp [driverModes, hs]⟩
      | InvalidPatchFormat m =>
        refine ⟨fun h => ?_, fun ⟨m2, hm⟩ => ?_⟩
        · simp [driverModes, hs] at h
        · rcases hm with hm | hm <;> simp [hs] at hm
      | FileNotFound m =>
        refine ⟨fun h => ?_, fun ⟨m2, hm⟩ => ?_⟩
        · simp [driverModes, hs] at h
        · rcases hm with hm | hm <;> simp [hs] at hm
      | DuplicatePath m =>
        refine ⟨fun h => ?_, fun ⟨m2, hm⟩ => ?_⟩
        · simp [driverModes, hs] at h
        · rcases hm with hm | hm <;> simp [hs] at hm
      | MissingFile m =>
        refine ⟨fun h => ?_, fun ⟨m2, hm⟩ => ?_⟩
        · simp [driverModes, hs] at h
        · rcases hm with hm | hm <;> simp [hs] at hm
      | FileExists m =>
        refine ⟨fun h => ?_, fun ⟨m2, hm⟩ => ?_⟩
        · simp [driverModes, hs] at h
        · rcases hm with hm | hm <;> simp [hs] at hm
      | InvalidLine m =>
        refine ⟨fun h => ?_, fun ⟨m2, hm⟩ => ?_⟩
        · simp [driverModes, hs] at h
        · rcases hm with hm | hm <;> simp [hs] at hm
      | IndexOutOfBounds m =>
        refine ⟨fun h => ?_, fun ⟨m2, hm⟩ => ?_⟩
        · simp [driverModes, hs] at h
        · rcases hm with hm | hm <;> simp [hs] at hm
      | IoError m =>
        refine ⟨fun h => ?_, fun ⟨m2, hm⟩ => ?_⟩
        · simp [driverModes, hs] at h
        · rcases hm with hm | hm <;> simp [hs] at hm
      | ContextNotFound m =>
        refine ⟨fun h => ?_, fun ⟨m2, hm⟩ => ?_⟩
        · simp [driverModes, hs] at h
        · rcases hm with hm | hm <;> simp [hs] at hm
  · rcases hs : apply_patch_backtracking_mode original_lines chunks
        WhitespaceMode.Strict with e | l
    · cases e <;> simp [driverModes, hs]
    · left
      simp [driverModes, hs]

/-- Witness for C2: on `["a "]` with a hunk deleting `"a"`, the Strict
call fails with `PatchConflict`, so the driver retries in Lenient mode and
returns its (successful) result. -/
theorem update_mode_escalation_witness :
    apply_patch_backtracking_mode ["a "] [exC2chunk] WhitespaceMode.Strict =
      Except.error (.PatchConflict conflictMsg) ∧
    applyUpdateLines ["a "] [exC2chunk] =
      apply_patch_backtracking_mode ["a "] [exC2chunk]
        WhitespaceMode.Lenient ∧
    applyUpdateLines ["a "] [exC2chunk] = Except.ok ["b"] :=
  ⟨by rfl,
   (update_mode_escalation ["a "] [exC2chunk]).2.1 conflictMsg (by rfl),
   by rfl⟩

/-! ## Claim C10 -/

/-- C10: `apply` never mutates the caller's VFS — the caller's map after
the call is the map before it; every error (a parse error on the input, or
an error from any action) yields a bare error with no VFS; parse errors
short-circuit; an action error aborts the remaining actions, so no
partially-applied multi-file result is ever returned. -/
theorem apply_vfs_frame :
    (∀ (parsed : Except ZenpatchError (List PatchAction)) (vfs : Vfs),
      (applyCall parsed vfs).2 = vfs) ∧
    (∀ (parsed : Except ZenpatchError (List PatchAction)) (vfs : Vfs) e,
      applyDriver parsed vfs = Except.error e →
      (applyCall parsed vfs).2 = vfs ∧
      ∀ v2, applyDriver parsed vfs ≠ Except.ok v2) ∧
    (∀ (vfs : Vfs) e, applyDriver (Except.error e) vfs = Except.error e) ∧
    (∀ (actions : List PatchAction) (vfs : Vfs),
      applyDriver (Except.ok actions) vfs = applyActions vfs actions) ∧
    (∀ (vfs : Vfs) (a : PatchAction) (rest : List PatchAction) e,
      applyAction vfs a = Except.error e →
      applyActions vfs (a :: rest) = Except.error e) := by
  refine ⟨?_, ?_, ?_, ?_, ?_⟩
  · intro parsed vfs
    rfl
  · intro parsed vfs e he
    refine ⟨rfl, fun v2 hv => ?_⟩
    rw [he] at hv
    cases hv
  · intro vfs e
    rfl
  · intro actions vfs
    rfl
  · intro vfs a rest e he
    unfold applyActions
    rw [he]

/-- Witness for C10: a failing Delete action (content mismatch) returns a
bare `PatchConflict` and the caller's one-file VFS is untouched. -/
theorem apply_vfs_frame_witness :
    applyDriver (Except.ok [exDelAction]) [("f", "x")] =
      Except.error (.PatchConflict
        "Content to delete does not match original content.") ∧
    (applyCall (Except.ok [exDelAction]) [("f", "x")]).2 = [("f", "x")] ∧
    ∀ v2, applyDriver (Except.ok [exDelAction]) [("f", "x")] ≠
      Except.ok v2 := by
  have h := apply_vfs_frame.2.1 (Except.ok [exDelAction]) [("f", "x")]
    (.PatchConflict "Content to delete does not match original content.")
    (by rfl)
  exact ⟨by rfl, h.1, h.2⟩

/-! ## Fuel adequacy -/

/-- The fixation pass pins at most one placement per chunk. -/
theorem find_fixed_path_length_le (lines : List String)
    (chunks : List Chunk) (mode : WhitespaceMode) :
    (find_fixed_mappings lines chunks mode).1.length ≤ chunks.length := by
  have key : ∀ (l : List (Nat × Chunk))
      (acc : List (Nat × Nat) × BacktrackingState × List Nat),
      ((l.foldl (fixStep lines mode) acc).1).length ≤
        acc.1.length + l.length := by
    intro l
    induction l with
    | nil => intro acc; simp
    | cons a t ih =>
      intro acc
      have hstep : ((fixStep lines mode acc a).1).length ≤
          acc.1.length + 1 := by
        dsimp only [fixStep]
        split_ifs <;> simp
      simp only [List.foldl_cons]
      have := ih (fixStep lines mode acc a)
      simp only [List.length_cons]
      omega
  have := key chunks.enum ([], BacktrackingState.new, [])
  simpa [List.enum_length] using this

set_option maxHeartbeats 1600000 in
/-- The solver's result does not depend on the fuel, as long as the fuel
exceeds the number of chunks still to be placed: the recursion grows the
path by one placement per level and completes when the path covers all
chunks, so any two sufficient fuels compute the same function.  Together
with `find_fixed_path_length_le` this shows the `chunks.length + 1` fuel
supplied by `engineRun` is faithful to the unbounded Rust recursion. -/
theorem backtrackFuel_congr (lines : List String) (chunks : List Chunk)
    (mode : WhitespaceMode) :
    ∀ (f g : Nat) (st : BacktrackingState) (path : List (Nat × Nat))
      (cnt : Nat),
      path.length ≤ chunks.length →
      chunks.length < path.length + f →
      chunks.length < path.length + g →
      backtrackFuel lines chunks mode f st path cnt =
        backtrackFuel lines chunks mode g st path cnt := by
  intro f
  induction f with
  | zero =>
    intro g st path cnt h1 h2 h3
    exact absurd h2 (by omega)
  | succ f ihf =>
    intro g st path cnt h1 h2 h3
    cases g with
    | zero => exact absurd h3 (by omega)
    | succ g =>
      rw [backtrackFuel.eq_2, backtrackFuel.eq_2]
      by_cases hc1 : MAX_BACKTRACK_NODES < min (cnt + 1) USIZE_MAX ∨
          1 < st.solution_count
      · rw [if_pos hc1, if_pos hc1]
      · rw [if_neg hc1, if_neg hc1]
        by_cases hlen : path.length = chunks.length
        · rw [if_pos hlen, if_pos hlen]
        · rw [if_neg hlen, if_neg hlen]
          apply List.foldl_ext
          intro acc ic hic
          dsimp only
          by_cases hg1 : 1 < acc.1.solution_count
          · rw [if_pos hg1, if_pos hg1]
          · rw [if_neg hg1, if_neg hg1]
            by_cases hg2 : acc.1.applied_chunks.contains ic.1 = true
            · rw [if_pos hg2, if_pos hg2]
            · rw [if_neg hg2, if_neg hg2]
              by_cases hg3 : skipNotMinOrig (minOrigRemaining chunks st)
                  ic.2 = true
              · rw [if_pos hg3, if_pos hg3]
              · rw [if_neg hg3, if_neg hg3]
                apply List.foldl_ext
                intro acc2 pos hpos
                dsimp only
                by_cases hh1 : 1 < acc2.1.solution_count
                · rw [if_pos hh1, if_pos hh1]
                · rw [if_neg hh1, if_neg hh1]
                  by_cases hh2 : ¬ contentMatchAt lines ic.2 pos mode = true
                  · rw [if_pos hh2, if_pos hh2]
                  · rw [if_neg hh2, if_neg hh2]
                    by_cases hh3 : (get_affected_indices ic.2 pos mode).any
                        (fun idx => acc2.1.modified_indices.contains idx) =
                          true
                    · rw [if_pos hh3, if_pos hh3]
                    · rw [if_neg hh3, if_neg hh3]
                      have hrec := ihf g
                        { acc2.1 with
                          applied_chunks := ic.1 :: acc2.1.applied_chunks,
                          modified_indices :=
                            get_affected_indices ic.2 pos mode ++
                              acc2.1.modified_indices }
                        (path ++ [(ic.1, pos)]) acc2.2
                        (by simp; omega) (by simp; omega) (by simp; omega)
                      rw [hrec]

/-- Any fuel above the chunk count computes the engine run. -/
theorem engineRun_fuel_any (original_lines : List String)
    (chunks : List Chunk) (mode : WhitespaceMode) (g : Nat)
    (hg : chunks.length < g) :
    engineRun original_lines chunks mode =
      backtrackFuel original_lines chunks mode g
        (find_fixed_mappings original_lines chunks mode).2
        (find_fixed_mappings original_lines chunks mode).1 0 := by
  unfold engineRun
  exact backtrackFuel_congr original_lines chunks mode
    (chunks.length + 1) g _ _ 0
    (find_fixed_path_length_le original_lines chunks mode) (by omega)
    (by have := find_fixed_path_length_le original_lines chunks mode; omega)

/-- Witness for C4: two pure-insertion hunks on an empty file. -/
theorem degenerate_insert_only_witness :
    apply_patch_backtracking_mode []
      [⟨5, [(LineType.Insertion, "i")], [], ["i"]⟩,
       ⟨0, [(LineType.Insertion, "j")], [], ["j"]⟩]
      WhitespaceMode.Strict = Except.ok ["i", "j"] ∧
    apply_patch_backtracking_mode_tl 7 []
      [⟨5, [(LineType.Insertion, "i")], [], ["i"]⟩,
       ⟨0, [(LineType.Insertion, "j")], [], ["j"]⟩]
      WhitespaceMode.Strict = (Except.ok ["i", "j"], 7) :=
  degenerate_insert_only []
    [⟨5, [(LineType.Insertion, "i")], [], ["i"]⟩,
     ⟨0, [(LineType.Insertion, "j")], [], ["j"]⟩]
    WhitespaceMode.Strict 7 rfl (by decide)

end Zenpatch
